import Mathlib

/-!
Verification of ecas (dlas): node runtime, blocking queues and tensors

A shallow embedding of `src/core/node.cpp`, `src/util/blocking_queue.hpp`,
`src/core/tensor.cpp` and the node selection of `src/core/session.cpp`, followed by
theorems about the embedded functions.

Conventions of the embedding.

* A pointer to a `BlockingQueuePair` is an address (`PairPtr`); the pairs live in a
  heap `PairHeap` that maps addresses to pair states, so two entries of a queue vector
  may alias the same pair.
* Indexing a `std::vector` outside its bounds is undefined behaviour; functions that can
  do so return `Option`, with `none` for that outcome.
* `exit(-1)` and `std::abort()` end the process; functions that can do so report how the
  call ended together with the state of the objects at that point.
* A `BlockingQueue` is described between two critical sections, so its state is the
  content of the `std::queue` it guards, front element first.
-/

set_option linter.dupNamespace false

namespace ecas

/-! ## util::BlockingQueue (src/util/blocking_queue.hpp) -/

/-- State of a `util::BlockingQueue<T>`: the content of `queue_`, front element first. -/
structure BlockingQueue (T : Type) where
  queue_ : List T
deriving Repr, DecidableEq

namespace BlockingQueue

variable {T : Type}

/-- Method `BlockingQueue::empty()`: `queue_.empty()`. -/
def empty (q : BlockingQueue T) : Bool :=
  q.queue_.isEmpty

/-- Method `BlockingQueue::size()`: `queue_.size()`, the number of elements held (returned
as an `int`, which the count of a queue that fits in memory does not exceed). -/
def size (q : BlockingQueue T) : Nat :=
  q.queue_.length

/-- Method `BlockingQueue::push(t)`: `queue_.push(t)` appends at the back. -/
def push (q : BlockingQueue T) (t : T) : BlockingQueue T :=
  { queue_ := q.queue_ ++ [t] }

/-- Method `BlockingQueue::try_front(T* t)`: on an empty queue returns `false` and leaves `*t`;
otherwise stores the front element in `*t` and returns `true`. The result is the returned
flag, the value of `*t` afterwards and the queue afterwards. -/
def try_front (q : BlockingQueue T) (slot : T) : Bool × T × BlockingQueue T :=
  match q.queue_ with
  | [] => (false, slot, q)
  | x :: _ => (true, x, q)

/-- Method `BlockingQueue::try_pop(T* t)`: on an empty queue returns `false`; otherwise stores the
front element in `*t`, pops it and returns `true`. -/
def try_pop (q : BlockingQueue T) (slot : T) : Bool × T × BlockingQueue T :=
  match q.queue_ with
  | [] => (false, slot, q)
  | x :: rest => (true, x, { queue_ := rest })

/-- Method `BlockingQueue::wait_and_pop(T* t)`: waits while the queue is empty, then stores the
front element in `*t` and pops it. With no other thread to push, the wait on an empty
queue never ends: that outcome is `none`. Otherwise the result is the value of `*t` and
the queue afterwards. -/
def wait_and_pop (q : BlockingQueue T) : Option (T × BlockingQueue T) :=
  match q.queue_ with
  | [] => none
  | x :: rest => some (x, { queue_ := rest })

end BlockingQueue

/-! ## Tensor views and tensors (src/core/tensor.cpp) -/

/-- Modelled from the spec: the memory-type tag of a tensor view, whose declaration is not
among the sources; the spec gives the tag set `{host, device}` and `tensor.cpp` names
`MEMORY_HOST`. -/
inductive MemoryType where
  | MEMORY_HOST
  | MEMORY_DEVICE
deriving Repr, DecidableEq

/-- Modelled from the spec: the view `ITensor` (shape + raw pointer + memory type), whose
declaration is not among the sources. `shape` is the `std::vector<int>`; `data` is the
`char *`, given by the byte found at each offset from the pointer. -/
structure ITensor where
  shape : List Int
  data : Nat → UInt8
  mem_type : MemoryType

/-- State of a `Tensor`: the view `*it_` and the element count `size_`. The owned `Buffer`
is the region `it_->data` points to. -/
structure Tensor where
  it_ : ITensor
  size_ : Int

/-! ## Queue pairs and nodes (src/core/node.cpp) -/

/-- Modelled from the spec: `BlockingQueuePair`, whose declaration is not among the
sources. One directed edge: the producer's name, the consumer's name and the two queues
of `Tensor *`, each entry given by the state of the tensor it points to. -/
structure BlockingQueuePair where
  front_name : String
  rear_name : String
  full : BlockingQueue Tensor
  free : BlockingQueue Tensor

/-- Address of a `BlockingQueuePair`. -/
abbrev PairPtr := Nat

/-- The queue pairs in memory, by address. -/
abbrev PairHeap := PairPtr → BlockingQueuePair

/-- The members of `Node` that `node.cpp` uses. `input_nodes_` / `output_nodes_` are the
`std::vector<Node*> *` neighbour lists (`none` is `nullptr`), each neighbour given by its
`name()`, the only member read through those pointers. `input_queues_` /
`output_queues_` are the `std::vector<BlockingQueuePair *>`. -/
structure Node where
  name_ : String
  input_nodes_ : Option (List String)
  output_nodes_ : Option (List String)
  input_queues_ : List PairPtr
  output_queues_ : List PairPtr
deriving Repr, DecidableEq

/-- Method `Node::SwapQueueOrder(queues, i, j)`: exchanges `queues[i]` and `queues[j]`.
`none` when `i` or `j` is outside the vector. -/
def SwapQueueOrder (queues : List PairPtr) (i j : Nat) : Option (List PairPtr) :=
  match queues[i]?, queues[j]? with
  | some qi, some qj => some ((queues.set i qj).set j qi)
  | _, _ => none

/-- Body of the inner loop of `ReorderInputQueues` / `ReorderOutputQueues` at index `qi`:
when the name read through `queues[qi]` is the target, nothing happens if `ni == qi` and
`SwapQueueOrder(queues, ni, qi)` runs otherwise. `name` is `front_name` or `rear_name`
read through the pointer. -/
def reorderStep (name : PairPtr → String) (target_name : String) (ni : Nat)
    (queues : List PairPtr) (qi : Nat) : Option (List PairPtr) :=
  match queues[qi]? with
  | none => none
  | some q =>
    if target_name = name q then
      if ni = qi then some queues else SwapQueueOrder queues ni qi
    else some queues

/-- The inner loop `for (int qi = 0; qi < queues.size(); qi++)`. A swap keeps the size of
the vector, so the bound is the size on entry. -/
def reorderScan (name : PairPtr → String) (target_name : String) (ni : Nat)
    (queues : List PairPtr) : Option (List PairPtr) :=
  (List.range queues.length).foldlM (reorderStep name target_name ni) queues

/-- The outer loop `for (int ni = 0; ni < nodes->size(); ni++)` with
`target_name = (*nodes)[ni]->name()`. -/
def reorderLoop (name : PairPtr → String) (nodes : List String)
    (queues : List PairPtr) : Option (List PairPtr) :=
  (List.range nodes.length).foldlM
    (fun qs ni =>
      match nodes[ni]? with
      | none => none
      | some target_name => reorderScan name target_name ni qs)
    queues

/-- Method `Node::ReorderInputQueues()`: nothing when `input_nodes_` is `nullptr`, otherwise the
two loops matching on `front_name`. -/
def ReorderInputQueues (heap : PairHeap) (n : Node) : Option Node :=
  match n.input_nodes_ with
  | none => some n
  | some nodes =>
    (reorderLoop (fun q => (heap q).front_name) nodes n.input_queues_).map
      (fun qs => { n with input_queues_ := qs })

/-- Method `Node::ReorderOutputQueues()`: nothing when `output_nodes_` is `nullptr`, otherwise the
two loops matching on `rear_name`. -/
def ReorderOutputQueues (heap : PairHeap) (n : Node) : Option Node :=
  match n.output_nodes_ with
  | none => some n
  | some nodes =>
    (reorderLoop (fun q => (heap q).rear_name) nodes n.output_queues_).map
      (fun qs => { n with output_queues_ := qs })

/-- Method `Node::CheckIoIsReady()`: `is_ready` starts `true` and is cleared by every input pair
whose `full` queue is empty and every output pair whose `free` queue is empty. The method
only calls the `const` accessor `empty()`; the result is the returned flag and the heap
afterwards. -/
def CheckIoIsReady (heap : PairHeap) (n : Node) : Bool × PairHeap :=
  let is_ready := n.input_queues_.foldl
    (fun r q => if (heap q).full.empty then false else r) true
  let is_ready := n.output_queues_.foldl
    (fun r q => if (heap q).free.empty then false else r) is_ready
  (is_ready, heap)

/-! ## Tensor (src/core/tensor.cpp) -/

/-- The value an `int` holds after an arithmetic result `x`: `x` reduced modulo `2^32` into
`[-2^31, 2^31)`. -/
def wrapInt (x : Int) : Int :=
  (x + 2 ^ 31) % 2 ^ 32 - 2 ^ 31

/-- The `size_t` a call such as `memcpy(dst, src, size_)` receives for an `int` argument:
the value modulo `2^64`. -/
def toSizeT (x : Int) : Nat :=
  (x % 2 ^ 64).toNat

/-- Library call `memcpy(dst, src, n)`: the first `n` bytes at `dst` become those at `src`. -/
def memcpy (dst src : Nat → UInt8) (n : Nat) : Nat → UInt8 :=
  fun i => if i < n then src i else dst i

/-- The first `n` bytes found at a pointer. -/
def payload (data : Nat → UInt8) (n : Nat) : List UInt8 :=
  (List.range n).map data

/-- The loop `size_ = 1; for (i < shape.size()) size_ *= shape[i];` of the constructor.
The declaration of `size_` is not among the sources; it is taken to be `int`, the type of
the dimensions it is multiplied by. -/
def elementCount (shape : List Int) : Int :=
  shape.foldl (fun size_ d => wrapInt (size_ * d)) 1

/-- Constructor `Tensor::Tensor(shape)`: copies the shape into the view, computes `size_`, calls
`std::abort()` when `size_ == 0` (the outcome `none`), otherwise allocates the buffer,
points `it_->data` at it and tags the view `MEMORY_HOST`. `Buffer` is not among the
sources: the allocation is taken to succeed and `fresh` is the content of the new
region. -/
def Tensor.Tensor (shape : List Int) (fresh : Nat → UInt8) : Option Tensor :=
  let size_ := elementCount shape
  if size_ = 0 then none
  else some { it_ := { shape := shape, data := fresh, mem_type := MemoryType.MEMORY_HOST },
              size_ := size_ }

/-- How a call of `CopyFrom` / `CopyTo` ends: it returns, or the process exits after
logging "shape mismatch" or "memory type mismatch". -/
inductive CopyExit where
  | returned
  | shape_mismatch
  | memory_type_mismatch
deriving Repr, DecidableEq

/-- The "Check dimension" loop of `CopyFrom` / `CopyTo` over the remaining indices:
`some false` when some `shape[i] != other[i]` is met (the process exits there),
`some true` when the loop runs to its end, `none` when `other[i]` is read outside the
other vector before that. -/
def dimLoop (shape other : List Int) : List Nat → Option Bool
  | [] => some true
  | i :: rest =>
    match shape[i]?, other[i]? with
    | some a, some b => if a ≠ b then some false else dimLoop shape other rest
    | _, _ => none

/-- The loop `for (int i = 0; i < it_->shape.size(); i++)` of `CopyFrom` / `CopyTo`. -/
def checkDimension (shape other : List Int) : Option Bool :=
  dimLoop shape other (List.range shape.length)

/-- Method `Tensor::CopyFrom(ITensor &in)`: the dimension loop, the memory-type test, then
`memcpy(it_->data, in.data, size_)`. The result is how the call ended with the tensor and
the view at that point; `none` when the dimension loop reads outside `in.shape`. -/
def Tensor.CopyFrom (t : ecas.Tensor) (inp : ITensor) :
    Option (CopyExit × ecas.Tensor × ITensor) :=
  match checkDimension t.it_.shape inp.shape with
  | none => none
  | some false => some (CopyExit.shape_mismatch, t, inp)
  | some true =>
    if t.it_.mem_type ≠ inp.mem_type then some (CopyExit.memory_type_mismatch, t, inp)
    else
      some (CopyExit.returned,
        { t with it_ := { t.it_ with data := memcpy t.it_.data inp.data (toSizeT t.size_) } },
        inp)

/-- Method `Tensor::CopyTo(ITensor *out)`: the dimension loop, the memory-type test, then
`memcpy(out->data, it_->data, size_)`. The result is how the call ended with the tensor
and the view at that point; `none` when the dimension loop reads outside `out->shape`. -/
def Tensor.CopyTo (t : ecas.Tensor) (out : ITensor) :
    Option (CopyExit × ecas.Tensor × ITensor) :=
  match checkDimension t.it_.shape out.shape with
  | none => none
  | some false => some (CopyExit.shape_mismatch, t, out)
  | some true =>
    if t.it_.mem_type ≠ out.mem_type then some (CopyExit.memory_type_mismatch, t, out)
    else
      some (CopyExit.returned, t,
        { out with data := memcpy out.data t.it_.data (toSizeT t.size_) })

/-! ## Sequences of queue operations -/

/-- One call on a `BlockingQueue`, as it takes effect inside its critical section.
`try_pop` carries the value `*t` held before the call. -/
inductive QueueOp (T : Type) where
  | push (t : T)
  | wait_and_pop
  | try_pop (slot : T)

/-- Effect of one call: the queue afterwards and, for a pop that delivered an element,
that element. `none` when `wait_and_pop` meets an empty queue. -/
def applyOp {T : Type} (op : QueueOp T) (q : BlockingQueue T) :
    Option (BlockingQueue T × Option T) :=
  match op with
  | QueueOp.push t => some (q.push t, none)
  | QueueOp.wait_and_pop =>
    match q.wait_and_pop with
    | none => none
    | some (x, q') => some (q', some x)
  | QueueOp.try_pop slot =>
    match q.try_pop slot with
    | (true, x, q') => some (q', some x)
    | (false, _, q') => some (q', none)

/-- Runs the calls in order; the result is the final queue and the elements delivered by
the successful pops, in the order of the pops. -/
def runOps {T : Type} : List (QueueOp T) → BlockingQueue T → Option (BlockingQueue T × List T)
  | [], q => some (q, [])
  | op :: rest, q =>
    match applyOp op q with
    | none => none
    | some (q', out) =>
      match runOps rest q' with
      | none => none
      | some (qf, outs) => some (qf, out.toList ++ outs)

/-- The values pushed by a sequence of calls, in the order of the pushes. -/
def pushed {T : Type} : List (QueueOp T) → List T
  | [] => []
  | QueueOp.push t :: rest => t :: pushed rest
  | _ :: rest => pushed rest

/-- No `wait_and_pop` of the sequence meets an empty queue, for a queue that holds `n`
elements at the start. A `try_pop` may meet an empty queue: it fails and delivers
nothing. -/
def waitsNonEmpty {T : Type} : List (QueueOp T) → Nat → Bool
  | [], _ => true
  | QueueOp.push _ :: rest, n => waitsNonEmpty rest (n + 1)
  | QueueOp.wait_and_pop :: _, 0 => false
  | QueueOp.wait_and_pop :: rest, n + 1 => waitsNonEmpty rest n
  | QueueOp.try_pop _ :: rest, n => waitsNonEmpty rest (n - 1)

/-! ## Borrowing tensors (src/core/node.cpp) -/

/-- Modelled from the spec: the accessor `Tensor::GetITensorPtr()`, declared in a header
that is not among the sources; the spec has a tensor expose its stable non-owning view,
which is `it_`. The `ITensor *` it returns is given by the state of the view. -/
def Tensor.GetITensorPtr (t : ecas.Tensor) : ITensor :=
  t.it_

/-- The statement `queues[i]->full.wait_and_pop(&inside_full)` on one pair: the tensor
delivered and the pair afterwards, `none` when the wait never ends. -/
def takeFull (pair : BlockingQueuePair) : Option (Tensor × BlockingQueuePair) :=
  match pair.full.wait_and_pop with
  | none => none
  | some (t, rest) => some (t, { pair with full := rest })

/-- The statement `queues[i]->free.wait_and_pop(&inside_free)` on one pair: the tensor
delivered and the pair afterwards, `none` when the wait never ends. -/
def takeFree (pair : BlockingQueuePair) : Option (Tensor × BlockingQueuePair) :=
  match pair.free.wait_and_pop with
  | none => none
  | some (t, rest) => some (t, { pair with free := rest })

/-- One of the two loops of `BorrowIo` over the remaining entries of a queue vector: pop a
tensor through the pointer, then `push_back` its view onto the result vector. The `printf`
calls only read sizes and are left out. -/
def borrowLoop (take : BlockingQueuePair → Option (Tensor × BlockingQueuePair)) :
    List PairPtr → PairHeap → List ITensor → Option (PairHeap × List ITensor)
  | [], heap, acc => some (heap, acc)
  | q :: rest, heap, acc =>
    match take (heap q) with
    | none => none
    | some (t, pair) =>
      borrowLoop take rest (fun p => if p = q then pair else heap p)
        (acc ++ [t.GetITensorPtr])

/-- Library call `std::vector::clear()`: the vector keeps no element. -/
def vectorClear {α : Type} (_v : List α) : List α :=
  []

/-- Method `Node::BorrowIo(inputs, outputs)`: `inputs.clear()`, the loop over
`input_queues_` popping from `full`, `outputs.clear()`, the loop over `output_queues_`
popping from `free`. The result is the heap and the two vectors afterwards; `none` when a
`wait_and_pop` never ends. -/
def BorrowIo (heap : PairHeap) (n : Node) (inputs outputs : List ITensor) :
    Option (PairHeap × List ITensor × List ITensor) :=
  let inputs := vectorClear inputs
  match borrowLoop takeFull n.input_queues_ heap inputs with
  | none => none
  | some (heap, inputs) =>
    let outputs := vectorClear outputs
    match borrowLoop takeFree n.output_queues_ heap outputs with
    | none => none
    | some (heap, outputs) => some (heap, inputs, outputs)

/-- The function `RecycleIo(inputs, outputs)` of `node.cpp`: its body is empty. The result
is the heap and the two vectors afterwards. -/
def RecycleIo (heap : PairHeap) (inputs outputs : List ITensor) :
    PairHeap × List ITensor × List ITensor :=
  (heap, inputs, outputs)

/-- A pair once the front element of its `full` queue is removed. -/
def dropFull (pair : BlockingQueuePair) : BlockingQueuePair :=
  { pair with full := { queue_ := pair.full.queue_.tail } }

/-- A pair once the front element of its `free` queue is removed. -/
def dropFree (pair : BlockingQueuePair) : BlockingQueuePair :=
  { pair with free := { queue_ := pair.free.queue_.tail } }

/-! ## Graph input and output nodes (src/core/session.cpp) -/

/-- The members of `SessionParams` that the second half of `Session::BuildGraph` uses.
`nodes` is the `std::map<std::string, Node*>` in iteration order (ascending key);
`input_node` and `output_node` are the `Node *` members (`none` is `nullptr`). A `Node *`
is given by the state of the node it points to. -/
structure SessionParams where
  nodes : List (String × Node)
  input_node : Option Node
  output_node : Option Node
deriving Repr, DecidableEq

/-- A call that `BuildGraph` makes on the scheduler, whose methods are not among the
sources: `UpdateGroups()` or `SetupTensors(input_node, output_node)` with its
arguments. -/
inductive SchedulerCall where
  | UpdateGroups
  | SetupTensors (input_node output_node : Option Node)
deriving Repr, DecidableEq

/-- The message of the first `ECAS_LOGE` of `BuildGraph`, without its line end. -/
def onlyOneInputMessage : String :=
  "BuildGraph -> Only one input node is allowed."

/-- The message of the second `ECAS_LOGE` of `BuildGraph`, without its line end. -/
def onlyOneOutputMessage : String :=
  "BuildGraph -> Only one output node is allowed."

/-- Body of the loop "Find the graph IO nodes" of `BuildGraph` for one map entry, on the
session members and the messages logged so far. The macro `ECAS_LOGE` is not among the
sources; it is taken to write its message and return, as in `tensor.cpp`, where every use
of it is followed by `exit(-1)`. The assignment after each `if` is outside the `if`. -/
def selectStep (s : SessionParams × List String) (n : Node) : SessionParams × List String :=
  let p := s.1
  let log := s.2
  if n.input_nodes_ = none ∧ n.output_nodes_ = none then
    (p, log)
  else if n.input_nodes_ = none then
    let log := if p.input_node ≠ none then log ++ [onlyOneInputMessage] else log
    ({ p with input_node := some n }, log)
  else if n.output_nodes_ = none then
    let log := if p.output_node ≠ none then log ++ [onlyOneOutputMessage] else log
    ({ p with output_node := some n }, log)
  else
    (p, log)

/-- The loop "Find the graph IO nodes" of `BuildGraph` over the map entries. -/
def selectIoNodes (p : SessionParams) (log : List String) : SessionParams × List String :=
  (p.nodes.map Prod.snd).foldl selectStep (p, log)

/-- Method `Session::BuildGraph`, from the loop "Find the graph IO nodes" on. `Topology` is
not among the sources: `p` is the session once the first loop has set the neighbour lists
of every node. After the selection loop come `UpdateGroups()` and
`SetupTensors(p->input_node, p->output_node)`, on every path. The result is the session
members, the messages logged and the scheduler calls made. -/
def BuildGraph (p : SessionParams) : SessionParams × List String × List SchedulerCall :=
  let r := selectIoNodes p []
  (r.1, r.2, [SchedulerCall.UpdateGroups,
    SchedulerCall.SetupTensors r.1.input_node r.1.output_node])

/-- A node with no input neighbours but some output neighbour. -/
def isGraphInput (n : Node) : Bool :=
  n.input_nodes_.isNone && n.output_nodes_.isSome

/-- A node with input neighbours but no output neighbour. -/
def isGraphOutput (n : Node) : Bool :=
  n.input_nodes_.isSome && n.output_nodes_.isNone

/-! ## Example states -/

/-- Heap used by the examples: pair `p` carries the `p`-th of the front names
`b, c, a` and of the rear names `z, x, y`; pair 0 has one tensor on `full`, pair 1 one
tensor on `free`, every other queue is empty. -/
def exampleHeap : PairHeap := fun p =>
  { front_name := ["b", "c", "a"].getD p "",
    rear_name := ["z", "x", "y"].getD p "",
    full := { queue_ := if p = 0 then
      [{ it_ := { shape := [1], data := fun _ => 0, mem_type := MemoryType.MEMORY_HOST },
         size_ := 1 }] else [] },
    free := { queue_ := if p = 1 then
      [{ it_ := { shape := [1], data := fun _ => 0, mem_type := MemoryType.MEMORY_HOST },
         size_ := 1 }] else [] } }

/-- Node used by the examples: neighbours `a, b, c` on the input side and `x, y, z` on the
output side, with the queue pairs 0, 1, 2 attached in allocation order on both sides. -/
def exampleNode : Node :=
  { name_ := "n",
    input_nodes_ := some ["a", "b", "c"],
    output_nodes_ := some ["x", "y", "z"],
    input_queues_ := [0, 1, 2],
    output_queues_ := [0, 1, 2] }

/-- Node used by the borrowing examples: pair 0 on the input side, pair 1 on the output
side; in `exampleHeap` pair 0 has one tensor on `full` and pair 1 one tensor on `free`. -/
def borrowNode : Node :=
  { name_ := "n",
    input_nodes_ := some ["b"],
    output_nodes_ := some ["x"],
    input_queues_ := [0],
    output_queues_ := [1] }

/-- Node used by the reordering examples: the neighbour name `b` twice and the unmatched
name `q` on the input side, with the queue pairs 0, 1, 2 of `exampleHeap`. -/
def repeatedNode : Node :=
  { name_ := "n",
    input_nodes_ := some ["b", "q", "b"],
    output_nodes_ := none,
    input_queues_ := [2, 1, 0],
    output_queues_ := [0, 1] }

/-- A node with the given name and neighbour lists and no queue attached. -/
def bareNode (name : String) (ins outs : Option (List String)) : Node :=
  { name_ := name, input_nodes_ := ins, output_nodes_ := outs,
    input_queues_ := [], output_queues_ := [] }

/-- Session with the edges `a -> c` and `b -> c`: `a` and `b` both have no input neighbour
and the output neighbour `c`. -/
def twoSources : SessionParams :=
  { nodes := [("a", bareNode "a" none (some ["c"])),
              ("b", bareNode "b" none (some ["c"])),
              ("c", bareNode "c" (some ["a", "b"]) none)],
    input_node := none,
    output_node := none }

/-- Session with the edges `a -> b` and `a -> c`: `b` and `c` both have the input
neighbour `a` and no output neighbour. -/
def twoSinks : SessionParams :=
  { nodes := [("a", bareNode "a" none (some ["b", "c"])),
              ("b", bareNode "b" (some ["a"]) none),
              ("c", bareNode "c" (some ["a"]) none)],
    input_node := none,
    output_node := none }

/-- Session with the edges `a -> b`, `b -> c` and the node `d` without any neighbour. -/
def chainSession : SessionParams :=
  { nodes := [("a", bareNode "a" none (some ["b"])),
              ("b", bareNode "b" (some ["a"]) (some ["c"])),
              ("c", bareNode "c" (some ["b"]) none),
              ("d", bareNode "d" none none)],
    input_node := none,
    output_node := none }

/-- A host view of shape `[2]` whose bytes are all 7. -/
def sevens : ITensor :=
  { shape := [2], data := fun _ => 7, mem_type := MemoryType.MEMORY_HOST }

/-- A host view of shape `[2, 3]` whose bytes are all 7: one dimension more than a tensor
of shape `[2]`, with the same leading dimension. -/
def longerView : ITensor :=
  { shape := [2, 3], data := fun _ => 7, mem_type := MemoryType.MEMORY_HOST }

/-- A device view of shape `[2]` whose bytes are all 7. -/
def deviceView : ITensor :=
  { shape := [2], data := fun _ => 7, mem_type := MemoryType.MEMORY_DEVICE }

/-- A host view of shape `[2]` whose bytes are all 9. -/
def nines : ITensor :=
  { shape := [2], data := fun _ => 9, mem_type := MemoryType.MEMORY_HOST }

/-- A tensor of shape `[2]` as the constructor leaves it on a zeroed buffer. -/
def smallTensor : Tensor :=
  { it_ := { shape := [2], data := fun _ => 0, mem_type := MemoryType.MEMORY_HOST },
    size_ := 2 }

end ecas

namespace ecas

/-! ## Reordering the queue vectors -/

/-- Overwriting position `j`, which held `a`, with `b` and putting `a` in front is a
rearrangement of `b :: xs`. -/
theorem perm_cons_set {α : Type} (a b : α) :
    ∀ (xs : List α) (j : Nat), xs[j]? = some a → (a :: xs.set j b).Perm (b :: xs) := by
  intro xs
  induction xs with
  | nil => intro j h; simp at h
  | cons y t ih =>
    intro j h
    cases j with
    | zero =>
      simp only [List.getElem?_cons_zero, Option.some.injEq] at h
      subst h
      simpa using List.Perm.swap b y t
    | succ j =>
      simp only [List.getElem?_cons_succ] at h
      have h1 : (a :: y :: t.set j b).Perm (y :: a :: t.set j b) := List.Perm.swap _ _ _
      have h2 : (y :: a :: t.set j b).Perm (y :: b :: t) := (ih j h).cons y
      have h3 : (y :: b :: t).Perm (b :: y :: t) := List.Perm.swap _ _ _
      simpa using (h1.trans h2).trans h3

/-- Exchanging two entries of a list rearranges it. -/
theorem perm_set_set {α : Type} (a b : α) :
    ∀ (l : List α) (i j : Nat), l[i]? = some b → l[j]? = some a →
      ((l.set i a).set j b).Perm l := by
  intro l
  induction l with
  | nil => intro i j h; simp at h
  | cons x xs ih =>
    intro i j hi hj
    cases i with
    | zero =>
      simp only [List.getElem?_cons_zero, Option.some.injEq] at hi
      subst hi
      cases j with
      | zero =>
        simp only [List.getElem?_cons_zero, Option.some.injEq] at hj
        subst hj
        simp
      | succ j =>
        simp only [List.getElem?_cons_succ] at hj
        simpa using perm_cons_set a x xs j hj
    | succ i =>
      simp only [List.getElem?_cons_succ] at hi
      cases j with
      | zero =>
        simp only [List.getElem?_cons_zero, Option.some.injEq] at hj
        subst hj
        simpa using perm_cons_set b x xs i hi
      | succ j =>
        simp only [List.getElem?_cons_succ] at hj
        simpa using (ih i j hi hj).cons x

/-- In bounds, `SwapQueueOrder` is the exchange of the two entries. -/
theorem SwapQueueOrder_eq (queues : List PairPtr) (i j : Nat) (qi qj : PairPtr)
    (hi : queues[i]? = some qi) (hj : queues[j]? = some qj) :
    SwapQueueOrder queues i j = some ((queues.set i qj).set j qi) := by
  simp [SwapQueueOrder, hi, hj]

/-- Entries of an exchanged list. -/
theorem getElem?_exchange {α : Type} (l : List α) (k p m : Nat) (a b : α)
    (hp : l[p]? = some a) (hk : l[k]? = some b) :
    ((l.set k a).set p b)[m]? =
      if m = p then some b else if m = k then some a else l[m]? := by
  have hpl : p < l.length := (List.getElem?_eq_some.mp hp).1
  have hkl : k < l.length := (List.getElem?_eq_some.mp hk).1
  by_cases h1 : m = p
  · subst h1
    simp [List.getElem?_set, hpl]
  · by_cases h2 : m = k
    · subst h2
      have : ¬ p = m := fun h => h1 h.symm
      simp [List.getElem?_set, hkl, this, h1]
    · have h3 : ¬ p = m := fun h => h1 h.symm
      have h4 : ¬ k = m := fun h => h2 h.symm
      simp [List.getElem?_set, h1, h2, h3, h4]

/-- Writing back what a position already holds changes nothing. -/
theorem set_same {α : Type} (l : List α) (k : Nat) (a : α) (h : l[k]? = some a) :
    l.set k a = l := by
  apply List.ext_getElem?
  intro n
  by_cases hn : k = n
  · subst hn
    have hkl : k < l.length := (List.getElem?_eq_some.mp h).1
    simp [List.getElem?_set, hkl, h]
  · simp [List.getElem?_set, hn]

/-- State of the inner loop after its first `m` rounds, when the target name occurs
exactly once among the queues, at position `p`: the exchange of positions `ni` and `p` has
happened once `p` was visited, and nothing else. -/
theorem reorderScan_rounds (name : PairPtr → String) (t : String) (k p : Nat)
    (qs : List PairPtr) (a b : PairPtr)
    (hp : qs[p]? = some a) (hk : qs[k]? = some b) (ha : name a = t)
    (huniq : ∀ i x, qs[i]? = some x → name x = t → i = p) :
    ∀ m, m ≤ qs.length →
      (List.range m).foldlM (reorderStep name t k) qs
        = some (if p < m then (qs.set k a).set p b else qs) := by
  intro m
  induction m with
  | zero => intro _; simp
  | succ m ih =>
    intro hm
    have hm1 : m < qs.length := hm
    rw [List.range_succ, List.foldlM_append, ih (Nat.le_of_lt hm1)]
    obtain ⟨x, hx⟩ : ∃ x, qs[m]? = some x := ⟨qs[m], by simp [hm1]⟩
    by_cases hpm : p < m
    · -- the exchange is done; the target now sits at position `k` only
      have hne : ¬ m = p := by omega
      have hpm1 : p < m + 1 := by omega
      simp only [hpm, hpm1, if_true, List.foldlM_cons, List.foldlM_nil, bind_pure,
        Option.some_bind, Option.bind_eq_bind]
      unfold reorderStep
      rw [getElem?_exchange qs k p m a b hp hk]
      by_cases hmk : m = k
      · subst hmk
        simp [hne, ha]
      · have hxt : ¬ t = name x := by
          intro h
          exact hne (huniq m x hx h.symm)
        simp [hne, hmk, hx, hxt]
    · by_cases hpe : p = m
      · subst hpe
        have hxa : x = a := by
          rw [hp] at hx
          exact (Option.some.inj hx).symm
        subst hxa
        simp only [Nat.lt_irrefl, if_false, Nat.lt_succ_self, if_true, List.foldlM_cons,
          List.foldlM_nil, bind_pure, Option.some_bind, Option.bind_eq_bind]
        unfold reorderStep
        rw [hp]
        by_cases hkp : k = p
        · subst hkp
          have hba : b = x := by
            rw [hp] at hk
            exact (Option.some.inj hk).symm
          subst hba
          have e1 : qs.set k b = qs := set_same qs k b hp
          simp [ha, e1]
        · simp [ha, hkp, SwapQueueOrder_eq qs k p b x hk hp]
      · have hpm1 : ¬ p < m + 1 := by omega
        have hxt : ¬ t = name x := by
          intro h
          exact hpe ((huniq m x hx h.symm).symm ▸ rfl)
        simp only [hpm, hpm1, if_false, List.foldlM_cons, List.foldlM_nil, bind_pure,
          Option.some_bind, Option.bind_eq_bind]
        unfold reorderStep
        simp [hx, hxt]

/-- The inner loop, when the target name occurs exactly once among the queues, at
position `p`: it ends with positions `ni` and `p` exchanged. -/
theorem reorderScan_eq (name : PairPtr → String) (t : String) (k p : Nat)
    (qs : List PairPtr) (a b : PairPtr)
    (hp : qs[p]? = some a) (hk : qs[k]? = some b) (ha : name a = t)
    (huniq : ∀ i x, qs[i]? = some x → name x = t → i = p) :
    reorderScan name t k qs = some ((qs.set k a).set p b) := by
  have hpl : p < qs.length := (List.getElem?_eq_some.mp hp).1
  unfold reorderScan
  rw [reorderScan_rounds name t k p qs a b hp hk ha huniq qs.length (Nat.le_refl _)]
  simp [hpl]

/-- In a list without repetition a value has one position. -/
theorem nodup_index_unique {α : Type} (l : List α) (hnd : l.Nodup) (i j : Nat) (v : α)
    (hi : l[i]? = some v) (hj : l[j]? = some v) : i = j := by
  obtain ⟨hil, hiv⟩ := List.getElem?_eq_some.mp hi
  obtain ⟨hjl, hjv⟩ := List.getElem?_eq_some.mp hj
  exact (List.Nodup.getElem_inj_iff hnd).mp (hiv.trans hjv.symm)

/-- State of the outer loop after its first `k` rounds, when the neighbour names are
pairwise distinct and the names read through the queues are a rearrangement of them: the
queues are a rearrangement of the initial ones and the first `k` positions carry the
names of the first `k` neighbours. -/
theorem reorderLoop_rounds (name : PairPtr → String) (nodes : List String)
    (hnd : nodes.Nodup) (qs0 : List PairPtr) (hperm : (qs0.map name).Perm nodes) :
    ∀ k, k ≤ nodes.length →
      ∃ qs, (List.range k).foldlM
          (fun qs ni =>
            match nodes[ni]? with
            | none => none
            | some target_name => reorderScan name target_name ni qs) qs0 = some qs
        ∧ qs.Perm qs0
        ∧ ∀ i, i < k → (qs[i]?).map name = nodes[i]? := by
  intro k
  induction k with
  | zero =>
    intro _
    exact ⟨qs0, by simp, List.Perm.refl _, by intro i hi; omega⟩
  | succ k ih =>
    intro hk1
    have hkn : k < nodes.length := hk1
    obtain ⟨qs, hrun, hqs, hpt⟩ := ih (Nat.le_of_lt hkn)
    have hmap : (qs.map name).Perm nodes := (hqs.map name).trans hperm
    have hlen : qs.length = nodes.length := by
      have := hmap.length_eq
      simpa using this
    have hndq : (qs.map name).Nodup := hmap.nodup_iff.mpr hnd
    -- the target of this round and its position among the queues
    have htk : nodes[k]? = some nodes[k] := by simp [hkn]
    have htmem : nodes[k] ∈ qs.map name := hmap.mem_iff.mpr (List.getElem_mem hkn)
    obtain ⟨p, hpmap⟩ := List.mem_iff_getElem?.mp htmem
    rw [List.getElem?_map] at hpmap
    obtain ⟨a, hp, ha⟩ := Option.map_eq_some'.mp hpmap
    obtain ⟨b, hkq⟩ : ∃ b, qs[k]? = some b := ⟨qs[k], by simp [hlen, hkn]⟩
    have huniq : ∀ i x, qs[i]? = some x → name x = nodes[k] → i = p := by
      intro i x hx hxn
      apply nodup_index_unique (qs.map name) hndq i p nodes[k]
      · rw [List.getElem?_map, hx]; simp [hxn]
      · rw [List.getElem?_map, hp]; simp [ha]
    refine ⟨(qs.set k a).set p b, ?_, ?_, ?_⟩
    · rw [List.range_succ, List.foldlM_append, hrun]
      simp only [List.foldlM_cons, List.foldlM_nil, bind_pure, Option.some_bind,
        Option.bind_eq_bind, htk]
      exact reorderScan_eq name nodes[k] k p qs a b hp hkq ha huniq
    · exact (perm_set_set a b qs k p hkq hp).trans hqs
    · intro i hi
      rw [getElem?_exchange qs k p i a b hp hkq]
      by_cases hik : i = k
      · subst hik
        by_cases hip : i = p
        · subst hip
          have hba : b = a := by
            rw [hp] at hkq
            exact (Option.some.inj hkq).symm
          simp [hba, ha, htk]
        · simp [hip, ha, htk]
      · have hilt : i < k := by omega
        have hpi := hpt i hilt
        have hip : ¬ i = p := by
          intro h
          subst h
          rw [hp] at hpi
          simp only [Option.map_some', ha] at hpi
          exact hik (nodup_index_unique nodes hnd i k nodes[k] hpi.symm htk)
        simp [hip, hik, hpi]

/-- The two loops, when the neighbour names are pairwise distinct and the names read
through the queues are a rearrangement of them: they end, with the queues rearranged so
that the names read through them are the neighbour names, position by position. -/
theorem reorderLoop_sorts (name : PairPtr → String) (nodes : List String)
    (hnd : nodes.Nodup) (qs0 : List PairPtr) (hperm : (qs0.map name).Perm nodes) :
    ∃ qs, reorderLoop name nodes qs0 = some qs ∧ qs.Perm qs0 ∧ qs.map name = nodes := by
  obtain ⟨qs, hrun, hqs, hpt⟩ :=
    reorderLoop_rounds name nodes hnd qs0 hperm nodes.length (Nat.le_refl _)
  refine ⟨qs, hrun, hqs, ?_⟩
  have hlen : qs.length = nodes.length := by
    have := ((hqs.map name).trans hperm).length_eq
    simpa using this
  apply List.ext_getElem?
  intro i
  rw [List.getElem?_map]
  by_cases hi : i < nodes.length
  · exact hpt i hi
  · have h1 : qs[i]? = none := by simp [hlen]; omega
    have h2 : nodes[i]? = none := by simp; omega
    simp [h1, h2]

/-- C1: for a node whose `input_nodes_` is non-null with pairwise distinct names and whose
`input_queues_` carry front names that are a rearrangement of those names (hence the same
length), `ReorderInputQueues` ends and afterwards the front name of `input_queues_[i]` is
the name of `input_nodes_[i]` for every index `i`; the queue pairs are the same ones,
rearranged, and the rest of the node is as before. -/
theorem ReorderInputQueues_matches_input_nodes (heap : PairHeap) (n : Node)
    (nodes : List String) (hnodes : n.input_nodes_ = some nodes) (hnd : nodes.Nodup)
    (hperm : (n.input_queues_.map (fun q => (heap q).front_name)).Perm nodes) :
    ∃ n1, ReorderInputQueues heap n = some n1
      ∧ n1.input_queues_.length = nodes.length
      ∧ (∀ (i : Nat) (q : PairPtr), n1.input_queues_[i]? = some q → nodes[i]? = some (heap q).front_name)
      ∧ n1.input_queues_.map (fun q => (heap q).front_name) = nodes
      ∧ n1.input_queues_.Perm n.input_queues_
      ∧ n1 = { n with input_queues_ := n1.input_queues_ } := by
  obtain ⟨qs, hrun, hqs, hmap⟩ :=
    reorderLoop_sorts (fun q => (heap q).front_name) nodes hnd n.input_queues_ hperm
  refine ⟨{ n with input_queues_ := qs }, ?_, ?_, ?_, hmap, hqs, rfl⟩
  · simp [ReorderInputQueues, hnodes, hrun]
  · have := congrArg List.length hmap
    simpa using this
  · intro i q hq
    have h := congrArg (fun l => l[i]?) hmap
    simp only [List.getElem?_map] at h
    show nodes[i]? = some (heap q).front_name
    rw [← h]
    show Option.map (fun q => (heap q).front_name) qs[i]? = some (heap q).front_name
    have hq1 : qs[i]? = some q := hq
    rw [hq1]
    rfl

/-- C1, on the example node: the front names are `b, c, a` against the neighbours
`a, b, c`. -/
theorem ReorderInputQueues_matches_input_nodes_witness :
    ∃ n1, ReorderInputQueues exampleHeap exampleNode = some n1
      ∧ n1.input_queues_.length = ["a", "b", "c"].length
      ∧ (∀ (i : Nat) (q : PairPtr), n1.input_queues_[i]? = some q →
          ["a", "b", "c"][i]? = some (exampleHeap q).front_name)
      ∧ n1.input_queues_.map (fun q => (exampleHeap q).front_name) = ["a", "b", "c"]
      ∧ n1.input_queues_.Perm exampleNode.input_queues_
      ∧ n1 = { exampleNode with input_queues_ := n1.input_queues_ } :=
  ReorderInputQueues_matches_input_nodes exampleHeap exampleNode ["a", "b", "c"] rfl
    (by decide) (by decide)

/-- C2: for a node whose `output_nodes_` is non-null with pairwise distinct names and whose
`output_queues_` carry rear names that are a rearrangement of those names (hence the same
length), `ReorderOutputQueues` ends and afterwards the rear name of `output_queues_[i]` is
the name of `output_nodes_[i]` for every index `i`; the queue pairs are the same ones,
rearranged, and the rest of the node is as before. -/
theorem ReorderOutputQueues_matches_output_nodes (heap : PairHeap) (n : Node)
    (nodes : List String) (hnodes : n.output_nodes_ = some nodes) (hnd : nodes.Nodup)
    (hperm : (n.output_queues_.map (fun q => (heap q).rear_name)).Perm nodes) :
    ∃ n1, ReorderOutputQueues heap n = some n1
      ∧ n1.output_queues_.length = nodes.length
      ∧ (∀ (i : Nat) (q : PairPtr), n1.output_queues_[i]? = some q → nodes[i]? = some (heap q).rear_name)
      ∧ n1.output_queues_.map (fun q => (heap q).rear_name) = nodes
      ∧ n1.output_queues_.Perm n.output_queues_
      ∧ n1 = { n with output_queues_ := n1.output_queues_ } := by
  obtain ⟨qs, hrun, hqs, hmap⟩ :=
    reorderLoop_sorts (fun q => (heap q).rear_name) nodes hnd n.output_queues_ hperm
  refine ⟨{ n with output_queues_ := qs }, ?_, ?_, ?_, hmap, hqs, rfl⟩
  · simp [ReorderOutputQueues, hnodes, hrun]
  · have := congrArg List.length hmap
    simpa using this
  · intro i q hq
    have h := congrArg (fun l => l[i]?) hmap
    simp only [List.getElem?_map] at h
    show nodes[i]? = some (heap q).rear_name
    rw [← h]
    show Option.map (fun q => (heap q).rear_name) qs[i]? = some (heap q).rear_name
    have hq1 : qs[i]? = some q := hq
    rw [hq1]
    rfl

/-- C2, on the example node: the rear names are `z, x, y` against the neighbours
`x, y, z`. -/
theorem ReorderOutputQueues_matches_output_nodes_witness :
    ∃ n1, ReorderOutputQueues exampleHeap exampleNode = some n1
      ∧ n1.output_queues_.length = ["x", "y", "z"].length
      ∧ (∀ (i : Nat) (q : PairPtr), n1.output_queues_[i]? = some q →
          ["x", "y", "z"][i]? = some (exampleHeap q).rear_name)
      ∧ n1.output_queues_.map (fun q => (exampleHeap q).rear_name) = ["x", "y", "z"]
      ∧ n1.output_queues_.Perm exampleNode.output_queues_
      ∧ n1 = { exampleNode with output_queues_ := n1.output_queues_ } :=
  ReorderOutputQueues_matches_output_nodes exampleHeap exampleNode ["x", "y", "z"] rfl
    (by decide) (by decide)

/-! ## Readiness -/

/-- A flag that every element satisfying `c` clears stays set exactly when it was set and
no element satisfies `c`. -/
theorem foldl_clear (c : PairPtr → Bool) :
    ∀ (l : List PairPtr) (init : Bool),
      l.foldl (fun r q => if c q then false else r) init
        = (init && l.all (fun q => !c q)) := by
  intro l
  induction l with
  | nil => intro init; simp
  | cons x xs ih =>
    intro init
    simp only [List.foldl_cons, ih, List.all_cons]
    cases init <;> cases c x <;> simp

/-- C3: `CheckIoIsReady` returns `true` exactly when the `full` queue of every entry of
`input_queues_` is non-empty and the `free` queue of every entry of `output_queues_` is
non-empty; it returns `true` when both vectors are empty; and the heap of queue pairs
after the call is the heap before it. -/
theorem CheckIoIsReady_iff (heap : PairHeap) (n : Node) :
    ((CheckIoIsReady heap n).1 = true ↔
        (∀ q ∈ n.input_queues_, (heap q).full.queue_ ≠ [])
          ∧ (∀ q ∈ n.output_queues_, (heap q).free.queue_ ≠ []))
      ∧ (n.input_queues_ = [] → n.output_queues_ = [] → (CheckIoIsReady heap n).1 = true)
      ∧ (CheckIoIsReady heap n).2 = heap := by
  have key : (CheckIoIsReady heap n).1 = true ↔
      (∀ q ∈ n.input_queues_, (heap q).full.queue_ ≠ [])
        ∧ (∀ q ∈ n.output_queues_, (heap q).free.queue_ ≠ []) := by
    simp only [CheckIoIsReady, foldl_clear, Bool.true_and, Bool.and_eq_true, List.all_eq_true,
      BlockingQueue.empty, Bool.not_eq_true', List.isEmpty_eq_false, ne_eq]
  refine ⟨key, ?_, rfl⟩
  intro h1 h2
  rw [key, h1, h2]
  simp

/-! ## First in, first out -/

/-- A sequence of calls in which no `wait_and_pop` meets an empty queue runs to its end,
and what the pops delivered followed by what is left in the queue is the initial content
followed by the pushed values. -/
theorem runOps_conserves {T : Type} :
    ∀ (ops : List (QueueOp T)) (q : BlockingQueue T),
      waitsNonEmpty ops q.queue_.length = true →
      ∃ qf outs, runOps ops q = some (qf, outs)
        ∧ outs ++ qf.queue_ = q.queue_ ++ pushed ops := by
  intro ops
  induction ops with
  | nil => intro q _; exact ⟨q, [], rfl, by simp [pushed]⟩
  | cons op rest ih =>
    intro q h
    cases op with
    | push t =>
      have h1 : waitsNonEmpty rest (q.push t).queue_.length = true := by
        simpa [BlockingQueue.push, waitsNonEmpty] using h
      obtain ⟨qf, outs, hrun, heq⟩ := ih (q.push t) h1
      refine ⟨qf, outs, ?_, ?_⟩
      · simp [runOps, applyOp, hrun]
      · simpa [BlockingQueue.push, pushed] using heq
    | wait_and_pop =>
      obtain ⟨l⟩ := q
      cases l with
      | nil => simp [waitsNonEmpty] at h
      | cons x r =>
        have h1 : waitsNonEmpty rest (BlockingQueue.mk r).queue_.length = true := by
          simpa [waitsNonEmpty] using h
        obtain ⟨qf, outs, hrun, heq⟩ := ih (BlockingQueue.mk r) h1
        refine ⟨qf, x :: outs, ?_, ?_⟩
        · simp [runOps, applyOp, BlockingQueue.wait_and_pop, hrun]
        · simpa [pushed] using heq
    | try_pop slot =>
      obtain ⟨l⟩ := q
      cases l with
      | nil =>
        have h1 : waitsNonEmpty rest (BlockingQueue.mk ([] : List T)).queue_.length = true := by
          simpa [waitsNonEmpty] using h
        obtain ⟨qf, outs, hrun, heq⟩ := ih (BlockingQueue.mk []) h1
        refine ⟨qf, outs, ?_, ?_⟩
        · simp [runOps, applyOp, BlockingQueue.try_pop, hrun]
        · simpa [pushed] using heq
      | cons x r =>
        have h1 : waitsNonEmpty rest (BlockingQueue.mk r).queue_.length = true := by
          simpa [waitsNonEmpty] using h
        obtain ⟨qf, outs, hrun, heq⟩ := ih (BlockingQueue.mk r) h1
        refine ⟨qf, x :: outs, ?_, ?_⟩
        · simp [runOps, applyOp, BlockingQueue.try_pop, hrun]
        · simpa [pushed] using heq

/-- C4: on a queue that starts empty, every sequence of `push`, `wait_and_pop` and
`try_pop` calls in which no `wait_and_pop` meets an empty queue runs to its end, and the
`i`-th element delivered by a pop is the `i`-th value pushed: the delivered elements
followed by the final content of the queue are the pushed values in push order. -/
theorem BlockingQueue_fifo {T : Type} (ops : List (QueueOp T))
    (h : waitsNonEmpty ops 0 = true) :
    ∃ qf outs, runOps ops (BlockingQueue.mk []) = some (qf, outs)
      ∧ outs ++ qf.queue_ = pushed ops
      ∧ ∀ (i : Nat) (hi : i < outs.length), (pushed ops)[i]? = some outs[i] := by
  obtain ⟨qf, outs, hrun, heq⟩ := runOps_conserves ops (BlockingQueue.mk []) h
  have heq1 : outs ++ qf.queue_ = pushed ops := by simpa using heq
  refine ⟨qf, outs, hrun, heq1, ?_⟩
  intro i hi
  rw [← heq1, List.getElem?_append_left hi]
  simp [hi]

/-- C4, on the calls push 1, push 2, wait_and_pop, push 3, try_pop, try_pop, try_pop: the
pops deliver 1, 2, 3 and the last `try_pop` fails on the emptied queue. -/
theorem BlockingQueue_fifo_witness :
    ∃ qf outs,
      runOps [QueueOp.push 1, QueueOp.push 2, QueueOp.wait_and_pop, QueueOp.push 3,
          QueueOp.try_pop 0, QueueOp.try_pop 0, QueueOp.try_pop 9] (BlockingQueue.mk [])
        = some (qf, outs)
      ∧ outs ++ qf.queue_
        = pushed [QueueOp.push 1, QueueOp.push 2, QueueOp.wait_and_pop, QueueOp.push 3,
            QueueOp.try_pop 0, QueueOp.try_pop 0, QueueOp.try_pop 9]
      ∧ ∀ (i : Nat) (hi : i < outs.length),
          (pushed [QueueOp.push (1 : Nat), QueueOp.push 2, QueueOp.wait_and_pop,
            QueueOp.push 3, QueueOp.try_pop 0, QueueOp.try_pop 0, QueueOp.try_pop 9])[i]?
            = some outs[i] :=
  BlockingQueue_fifo _ (by decide)

/-! ## Copying between a tensor and a view -/

/-- Over indices inside the vector, the dimension loop run against the same shape reaches
its end. -/
theorem dimLoop_self (shape : List Int) :
    ∀ (l : List Nat), (∀ i ∈ l, i < shape.length) → dimLoop shape shape l = some true := by
  intro l
  induction l with
  | nil => intro _; rfl
  | cons i rest ih =>
    intro h
    have hi : i < shape.length := h i (List.mem_cons_self _ _)
    have hrest : ∀ k ∈ rest, k < shape.length := fun k hk => h k (List.mem_cons_of_mem _ hk)
    have hget : shape[i]? = some shape[i] := by simp [hi]
    simp [dimLoop, hget, ih hrest]

/-- Equal shapes pass the dimension loop. -/
theorem checkDimension_self (shape : List Int) : checkDimension shape shape = some true := by
  unfold checkDimension
  apply dimLoop_self
  intro i hi
  exact List.mem_range.mp hi

/-- Bytes of the copied range after `memcpy`. -/
theorem payload_memcpy (dst src : Nat → UInt8) (n : Nat) :
    payload (memcpy dst src n) n = payload src n := by
  unfold payload
  apply List.map_congr_left
  intro i hi
  have : i < n := List.mem_range.mp hi
  simp [memcpy, this]

/-- C5, at a tensor of shape `[2]` built by the constructor and the host view `longerView`
of shape `[2, 3]`: the shapes differ, yet `CopyFrom` returns with the two bytes of the
view copied into the tensor and `CopyTo` returns with the two bytes of the tensor copied
into the view; neither ends with the shape-mismatch exit. -/
theorem Copy_longer_shape_not_rejected :
    (Tensor.Tensor [2] (fun _ => 0)).map (fun t => t.it_.shape) = some [2]
      ∧ longerView.shape = [2, 3]
      ∧ ((Tensor.Tensor [2] (fun _ => 0)).bind (fun t => t.CopyFrom longerView)).map
          (fun r => (r.1, payload r.2.1.it_.data 2)) = some (CopyExit.returned, [7, 7])
      ∧ ((Tensor.Tensor [2] (fun _ => 0)).bind (fun t => t.CopyTo longerView)).map
          (fun r => (r.1, payload r.2.2.data 2)) = some (CopyExit.returned, [0, 0]) := by
  refine ⟨by decide, rfl, by decide, by decide⟩

/-- C6: for a tensor and a view of the same shape but of different memory types, `CopyFrom`
and `CopyTo` both end with the memory-type-mismatch exit, with the tensor and the view in
the state they had before the call. -/
theorem Copy_memory_type_mismatch (t : Tensor) (v : ITensor)
    (hshape : v.shape = t.it_.shape) (hmem : t.it_.mem_type ≠ v.mem_type) :
    t.CopyFrom v = some (CopyExit.memory_type_mismatch, t, v)
      ∧ t.CopyTo v = some (CopyExit.memory_type_mismatch, t, v) := by
  constructor
  · simp [Tensor.CopyFrom, hshape, checkDimension_self, hmem]
  · simp [Tensor.CopyTo, hshape, checkDimension_self, hmem]

/-- C6, on the host tensor `smallTensor` and the device view `deviceView`, both of shape
`[2]`. -/
theorem Copy_memory_type_mismatch_witness :
    smallTensor.CopyFrom deviceView
        = some (CopyExit.memory_type_mismatch, smallTensor, deviceView)
      ∧ smallTensor.CopyTo deviceView
        = some (CopyExit.memory_type_mismatch, smallTensor, deviceView) :=
  Copy_memory_type_mismatch smallTensor deviceView rfl (by decide)

/-- C7: for a tensor and a view of the same shape and memory type, `CopyFrom` returns, with
the view as it was; afterwards the first `size_` bytes of the tensor are the first `size_`
bytes of the view, and the shape, the element count and the memory type of the tensor are
as before. -/
theorem CopyFrom_copies_payload (t : Tensor) (v : ITensor)
    (hshape : v.shape = t.it_.shape) (hmem : t.it_.mem_type = v.mem_type) :
    ∃ t1, t.CopyFrom v = some (CopyExit.returned, t1, v)
      ∧ payload t1.it_.data (toSizeT t.size_) = payload v.data (toSizeT t.size_)
      ∧ t1.it_.shape = t.it_.shape
      ∧ t1.size_ = t.size_
      ∧ t1.it_.mem_type = t.it_.mem_type := by
  refine ⟨{ t with it_ := { t.it_ with
      data := memcpy t.it_.data v.data (toSizeT t.size_) } }, ?_, ?_, rfl, rfl, rfl⟩
  · simp [Tensor.CopyFrom, hshape, checkDimension_self, hmem]
  · exact payload_memcpy _ _ _

/-- C7, on the zeroed tensor `smallTensor` and the view `sevens`. -/
theorem CopyFrom_copies_payload_witness :
    ∃ t1, smallTensor.CopyFrom sevens = some (CopyExit.returned, t1, sevens)
      ∧ payload t1.it_.data (toSizeT smallTensor.size_)
          = payload sevens.data (toSizeT smallTensor.size_)
      ∧ t1.it_.shape = smallTensor.it_.shape
      ∧ t1.size_ = smallTensor.size_
      ∧ t1.it_.mem_type = smallTensor.it_.mem_type :=
  CopyFrom_copies_payload smallTensor sevens rfl rfl

/-- C8: for a source view `v`, a tensor `t` and a destination view `w` of one shape and one
memory type, `t.CopyFrom(v)` returns, `CopyTo(w)` on the resulting tensor returns, and
afterwards the first `size_` bytes of `w` are the first `size_` bytes of `v`. -/
theorem CopyFrom_CopyTo_roundtrip (t : Tensor) (v w : ITensor)
    (hv : v.shape = t.it_.shape) (hw : w.shape = t.it_.shape)
    (hvm : t.it_.mem_type = v.mem_type) (hwm : t.it_.mem_type = w.mem_type) :
    ∃ t1 w1, t.CopyFrom v = some (CopyExit.returned, t1, v)
      ∧ t1.CopyTo w = some (CopyExit.returned, t1, w1)
      ∧ payload w1.data (toSizeT t.size_) = payload v.data (toSizeT t.size_) := by
  refine ⟨{ t with it_ := { t.it_ with
      data := memcpy t.it_.data v.data (toSizeT t.size_) } },
    { w with
      data := memcpy w.data (memcpy t.it_.data v.data (toSizeT t.size_)) (toSizeT t.size_) },
    ?_, ?_, ?_⟩
  · simp [Tensor.CopyFrom, hv, checkDimension_self, hvm]
  · simp [Tensor.CopyTo, hw, checkDimension_self, hwm]
  · rw [payload_memcpy, payload_memcpy]

/-- C8, on the view `sevens`, the zeroed tensor `smallTensor` and the destination view
`nines`. -/
theorem CopyFrom_CopyTo_roundtrip_witness :
    ∃ t1 w1, smallTensor.CopyFrom sevens = some (CopyExit.returned, t1, sevens)
      ∧ t1.CopyTo nines = some (CopyExit.returned, t1, w1)
      ∧ payload w1.data (toSizeT smallTensor.size_)
          = payload sevens.data (toSizeT smallTensor.size_) :=
  CopyFrom_CopyTo_roundtrip smallTensor sevens nines rfl rfl rfl rfl

/-! ## Construction of a tensor -/

/-- An `int` holds its arithmetic result up to a multiple of `2^32`. -/
theorem wrapInt_modEq (x : Int) : wrapInt x ≡ x [ZMOD 2 ^ 32] := by
  unfold wrapInt Int.ModEq
  omega

/-- Results that agree up to a multiple of `2^32` are held as the same `int`. -/
theorem wrapInt_congr (x y : Int) (h : x ≡ y [ZMOD 2 ^ 32]) : wrapInt x = wrapInt y := by
  unfold wrapInt
  unfold Int.ModEq at h
  omega

/-- A result inside the range of `int` is held as it is. -/
theorem wrapInt_of_range (x : Int) (hlo : -2 ^ 31 ≤ x) (hhi : x < 2 ^ 31) : wrapInt x = x := by
  unfold wrapInt
  omega

/-- The multiplication loop started from the `int` holding `a` ends with the `int` holding
`a` times the product of the dimensions. -/
theorem foldl_wrapInt (shape : List Int) :
    ∀ (a : Int), shape.foldl (fun size_ d => wrapInt (size_ * d)) (wrapInt a)
      = wrapInt (a * shape.prod) := by
  induction shape with
  | nil => intro a; simp
  | cons d rest ih =>
    intro a
    simp only [List.foldl_cons, List.prod_cons]
    rw [ih (wrapInt a * d)]
    apply wrapInt_congr
    have h1 : wrapInt a * d ≡ a * d [ZMOD 2 ^ 32] := (wrapInt_modEq a).mul_right d
    have h2 := h1.mul_right rest.prod
    simpa [mul_assoc] using h2

/-- The element count the constructor computes is the `int` holding the product of the
dimensions. -/
theorem elementCount_eq (shape : List Int) : elementCount shape = wrapInt shape.prod := by
  have h := foldl_wrapInt shape 1
  have h1 : wrapInt 1 = 1 := by decide
  rw [h1] at h
  simpa [elementCount] using h

/-- C10 as stated fails at the shape `[-1, -1]`: both dimensions are negative, yet
construction completes, with `size_ = 1` and the negative dimensions in the view. -/
theorem Tensor_negative_dimensions_accepted :
    (∃ d ∈ ([-1, -1] : List Int), d ≤ 0)
      ∧ ∃ t, Tensor.Tensor [-1, -1] (fun _ => 0) = some t
          ∧ t.size_ = 1 ∧ t.it_.shape = [-1, -1] := by
  refine ⟨⟨-1, by simp, by decide⟩,
    ⟨⟨[-1, -1], fun _ => 0, MemoryType.MEMORY_HOST⟩, 1⟩, ?_, rfl, rfl⟩
  simp [Tensor.Tensor, elementCount, wrapInt]

/-- C10, amended: for every shape that contains a dimension equal to zero, construction
aborts; so every tensor that construction yields has only non-zero dimensions. -/
theorem Tensor_zero_dimension_aborts (shape : List Int) (fresh : Nat → UInt8) :
    ((0 : Int) ∈ shape → Tensor.Tensor shape fresh = none)
      ∧ ∀ t, Tensor.Tensor shape fresh = some t → ∀ d ∈ t.it_.shape, d ≠ 0 := by
  have habort : (0 : Int) ∈ shape → Tensor.Tensor shape fresh = none := by
    intro h0
    have hprod : shape.prod = 0 := List.prod_eq_zero h0
    have hcount : elementCount shape = 0 := by
      rw [elementCount_eq, hprod]
      decide
    simp [Tensor.Tensor, hcount]
  refine ⟨habort, ?_⟩
  intro t ht d hd hd0
  have hshape : t.it_.shape = shape := by
    unfold Tensor.Tensor at ht
    by_cases hz : elementCount shape = 0
    · simp [hz] at ht
    · simp only [hz, if_false, Option.some.injEq] at ht
      subst ht
      rfl
  rw [hshape, hd0] at hd
  rw [habort hd] at ht
  exact Option.noConfusion ht

/-! ## Selecting the graph input and output nodes -/

/-- The loop body by kind of node: a node with no input neighbour but some output
neighbour becomes `input_node`, with a message when one was already set; a node with
input neighbours but no output neighbour becomes `output_node`, likewise; any other node
changes nothing. -/
theorem selectStep_eq (p : SessionParams) (log : List String) (n : Node) :
    selectStep (p, log) n =
      if isGraphInput n = true then
        ({ p with input_node := some n },
          if p.input_node ≠ none then log ++ [onlyOneInputMessage] else log)
      else if isGraphOutput n = true then
        ({ p with output_node := some n },
          if p.output_node ≠ none then log ++ [onlyOneOutputMessage] else log)
      else (p, log) := by
  cases hi : n.input_nodes_ <;> cases ho : n.output_nodes_ <;>
    simp [selectStep, isGraphInput, isGraphOutput, hi, ho]

/-- A node is not both a graph input and a graph output. -/
theorem not_input_and_output (n : Node) (h : isGraphInput n = true) :
    isGraphOutput n = false := by
  cases hi : n.input_nodes_ <;> cases ho : n.output_nodes_ <;>
    simp [isGraphInput, isGraphOutput, hi, ho] at h ⊢

/-- After the selection loop over `l`, `input_node` is the last node of `l` with no input
neighbour but some output neighbour, or what it was when there is none; likewise
`output_node`; the map is untouched. -/
theorem foldl_selectStep_nodes (l : List Node) :
    ∀ (p : SessionParams) (log : List String),
      (l.foldl selectStep (p, log)).1.input_node
          = (match (l.filter isGraphInput).getLast? with
              | some x => some x
              | none => p.input_node)
        ∧ (l.foldl selectStep (p, log)).1.output_node
          = (match (l.filter isGraphOutput).getLast? with
              | some x => some x
              | none => p.output_node)
        ∧ (l.foldl selectStep (p, log)).1.nodes = p.nodes := by
  induction l with
  | nil => intro p log; simp
  | cons x rest ih =>
    intro p log
    rw [List.foldl_cons, selectStep_eq]
    by_cases hin : isGraphInput x = true
    · have hout : isGraphOutput x = false := not_input_and_output x hin
      rw [if_pos hin]
      obtain ⟨h1, h2, h3⟩ := ih { p with input_node := some x }
        (if p.input_node ≠ none then log ++ [onlyOneInputMessage] else log)
      refine ⟨?_, ?_, h3⟩
      · rw [h1, List.filter_cons_of_pos hin]
        cases hf : List.filter isGraphInput rest with
        | nil => simp
        | cons y ys =>
          obtain ⟨z, hz⟩ : ∃ z, (y :: ys).getLast? = some z :=
            ⟨_, List.getLast?_eq_getLast _ (by simp)⟩
          rw [List.getLast?_cons_cons, hz]
      · rw [h2, List.filter_cons_of_neg (by simp [hout])]
    · by_cases hout : isGraphOutput x = true
      · rw [if_neg hin, if_pos hout]
        obtain ⟨h1, h2, h3⟩ := ih { p with output_node := some x }
          (if p.output_node ≠ none then log ++ [onlyOneOutputMessage] else log)
        refine ⟨?_, ?_, h3⟩
        · rw [h1, List.filter_cons_of_neg hin]
        · rw [h2, List.filter_cons_of_pos hout]
          cases hf : List.filter isGraphOutput rest with
          | nil => simp
          | cons y ys =>
            obtain ⟨z, hz⟩ : ∃ z, (y :: ys).getLast? = some z :=
              ⟨_, List.getLast?_eq_getLast _ (by simp)⟩
            rw [List.getLast?_cons_cons, hz]
      · rw [if_neg hin, if_neg hout]
        obtain ⟨h1, h2, h3⟩ := ih p log
        refine ⟨?_, ?_, h3⟩
        · rw [h1, List.filter_cons_of_neg hin]
        · rw [h2, List.filter_cons_of_neg hout]

/-- The selection loop logs nothing when, on each side, either no node of `l` qualifies,
or the member is still null and at most one node of `l` qualifies. -/
theorem foldl_selectStep_quiet (l : List Node) :
    ∀ (p : SessionParams) (log : List String),
      (l.filter isGraphInput = []
          ∨ (p.input_node = none ∧ (l.filter isGraphInput).length ≤ 1)) →
      (l.filter isGraphOutput = []
          ∨ (p.output_node = none ∧ (l.filter isGraphOutput).length ≤ 1)) →
      (l.foldl selectStep (p, log)).2 = log := by
  induction l with
  | nil => intro p log _ _; simp
  | cons x rest ih =>
    intro p log h1 h2
    rw [List.foldl_cons, selectStep_eq]
    by_cases hin : isGraphInput x = true
    · have hout : isGraphOutput x = false := not_input_and_output x hin
      rw [List.filter_cons_of_pos hin] at h1
      rw [List.filter_cons_of_neg (by simp [hout])] at h2
      have hnull : p.input_node = none := by
        rcases h1 with h | ⟨h, _⟩
        · simp at h
        · exact h
      have hrest : List.filter isGraphInput rest = [] := by
        rcases h1 with h | ⟨_, h⟩
        · simp at h
        · simp only [List.length_cons] at h
          exact List.length_eq_zero.mp (by omega)
      rw [if_pos hin, if_neg (by simp [hnull])]
      exact ih _ log (Or.inl hrest) h2
    · by_cases hout : isGraphOutput x = true
      · rw [List.filter_cons_of_neg hin] at h1
        rw [List.filter_cons_of_pos hout] at h2
        have hnull : p.output_node = none := by
          rcases h2 with h | ⟨h, _⟩
          · simp at h
          · exact h
        have hrest : List.filter isGraphOutput rest = [] := by
          rcases h2 with h | ⟨_, h⟩
          · simp at h
          · simp only [List.length_cons] at h
            exact List.length_eq_zero.mp (by omega)
        rw [if_neg hin, if_pos hout, if_neg (by simp [hnull])]
        exact ih _ log h1 (Or.inl hrest)
      · rw [List.filter_cons_of_neg hin] at h1
        rw [List.filter_cons_of_neg hout] at h2
        rw [if_neg hin, if_neg hout]
        exact ih p log h1 h2

/-- C11, at the sessions `twoSources` (edges `a -> c`, `b -> c`) and `twoSinks` (edges
`a -> b`, `a -> c`): with two nodes that have no input neighbour but an output neighbour,
`BuildGraph` logs "Only one input node is allowed", keeps the later one, `b`, as
`input_node` and goes on to `UpdateGroups()` and `SetupTensors(b, c)`; with two nodes that
have input neighbours but no output neighbour it logs "Only one output node is allowed",
keeps `c` as `output_node` and goes on to `SetupTensors(a, c)`. -/
theorem BuildGraph_continues_after_second_candidate :
    ((twoSources.nodes.map Prod.snd).filter isGraphInput).length = 2
      ∧ BuildGraph twoSources
        = ({ twoSources with
              input_node := some (bareNode "b" none (some ["c"])),
              output_node := some (bareNode "c" (some ["a", "b"]) none) },
            [onlyOneInputMessage],
            [SchedulerCall.UpdateGroups,
              SchedulerCall.SetupTensors (some (bareNode "b" none (some ["c"])))
                (some (bareNode "c" (some ["a", "b"]) none))])
      ∧ ((twoSinks.nodes.map Prod.snd).filter isGraphOutput).length = 2
      ∧ BuildGraph twoSinks
        = ({ twoSinks with
              input_node := some (bareNode "a" none (some ["b", "c"])),
              output_node := some (bareNode "c" (some ["a"]) none) },
            [onlyOneOutputMessage],
            [SchedulerCall.UpdateGroups,
              SchedulerCall.SetupTensors (some (bareNode "a" none (some ["b", "c"])))
                (some (bareNode "c" (some ["a"]) none))]) := by
  refine ⟨by decide, by decide, by decide, by decide⟩

/-- C12: for a node map in which exactly one node, `a`, has null `input_nodes_` and
non-null `output_nodes_` and exactly one node, `b`, has non-null `input_nodes_` and null
`output_nodes_`, the selection loop of `BuildGraph` started with `input_node` and
`output_node` null ends with `input_node = a` and `output_node = b`, logs nothing and
leaves the map as it was; neither selected node has both lists null. -/
theorem selectIoNodes_unique (p : SessionParams) (log : List String) (a b : Node)
    (hin : p.input_node = none) (hout : p.output_node = none)
    (ha : (p.nodes.map Prod.snd).filter isGraphInput = [a])
    (hb : (p.nodes.map Prod.snd).filter isGraphOutput = [b]) :
    (selectIoNodes p log).1.input_node = some a
      ∧ (selectIoNodes p log).1.output_node = some b
      ∧ (selectIoNodes p log).2 = log
      ∧ (selectIoNodes p log).1.nodes = p.nodes
      ∧ ∀ n, ((selectIoNodes p log).1.input_node = some n
            ∨ (selectIoNodes p log).1.output_node = some n) →
          ¬ (n.input_nodes_ = none ∧ n.output_nodes_ = none) := by
  obtain ⟨h1, h2, h3⟩ := foldl_selectStep_nodes (p.nodes.map Prod.snd) p log
  rw [ha] at h1
  rw [hb] at h2
  have hsel_in : (selectIoNodes p log).1.input_node = some a := by
    simpa [selectIoNodes] using h1
  have hsel_out : (selectIoNodes p log).1.output_node = some b := by
    simpa [selectIoNodes] using h2
  have hquiet : (selectIoNodes p log).2 = log := by
    apply foldl_selectStep_quiet
    · exact Or.inr ⟨hin, by simp [ha]⟩
    · exact Or.inr ⟨hout, by simp [hb]⟩
  have hamem : a ∈ (p.nodes.map Prod.snd).filter isGraphInput := by simp [ha]
  have hbmem : b ∈ (p.nodes.map Prod.snd).filter isGraphOutput := by simp [hb]
  have haq : isGraphInput a = true := (List.mem_filter.mp hamem).2
  have hbq : isGraphOutput b = true := (List.mem_filter.mp hbmem).2
  refine ⟨hsel_in, hsel_out, hquiet, h3, ?_⟩
  intro n hn hboth
  rcases hn with hn | hn
  · rw [hsel_in] at hn
    have hna : n = a := (Option.some.inj hn).symm
    subst hna
    simp [isGraphInput, hboth.1, hboth.2] at haq
  · rw [hsel_out] at hn
    have hnb : n = b := (Option.some.inj hn).symm
    subst hnb
    simp [isGraphOutput, hboth.1, hboth.2] at hbq

/-- C12, on the session `chainSession` (edges `a -> b`, `b -> c`, node `d` without any
neighbour): the loop selects `a` and `c`. -/
theorem selectIoNodes_unique_witness :
    (selectIoNodes chainSession []).1.input_node = some (bareNode "a" none (some ["b"]))
      ∧ (selectIoNodes chainSession []).1.output_node
          = some (bareNode "c" (some ["b"]) none)
      ∧ (selectIoNodes chainSession []).2 = []
      ∧ (selectIoNodes chainSession []).1.nodes = chainSession.nodes
      ∧ ∀ n, ((selectIoNodes chainSession []).1.input_node = some n
            ∨ (selectIoNodes chainSession []).1.output_node = some n) →
          ¬ (n.input_nodes_ = none ∧ n.output_nodes_ = none) :=
  selectIoNodes_unique chainSession [] (bareNode "a" none (some ["b"]))
    (bareNode "c" (some ["b"]) none) rfl rfl (by decide) (by decide)

/-! ## Borrowing tensors -/

/-- A borrowing loop over pairwise distinct pairs from each of which a tensor can be
taken: it ends, appends the views of the taken tensors in the order of the vector, and
leaves in the heap the taken-from state of exactly the listed pairs. -/
theorem borrowLoop_spec (take : BlockingQueuePair → Option (Tensor × BlockingQueuePair)) :
    ∀ (qs : List PairPtr) (heap : PairHeap) (acc : List ITensor),
      qs.Nodup → (∀ q ∈ qs, (take (heap q)).isSome = true) →
      ∃ heap1 out, borrowLoop take qs heap acc = some (heap1, out)
        ∧ out.map some = acc.map some
            ++ qs.map (fun q => (take (heap q)).map (fun r => r.1.GetITensorPtr))
        ∧ ∀ p, some (heap1 p)
            = if p ∈ qs then (take (heap p)).map (fun r => r.2) else some (heap p) := by
  intro qs
  induction qs with
  | nil =>
    intro heap acc _ _
    exact ⟨heap, acc, rfl, by simp, by simp⟩
  | cons q rest ih =>
    intro heap acc hnd hready
    have hq_notin : q ∉ rest := (List.nodup_cons.mp hnd).1
    have hrest_nd : rest.Nodup := (List.nodup_cons.mp hnd).2
    obtain ⟨⟨t, pair⟩, htake⟩ :=
      Option.isSome_iff_exists.mp (hready q (List.mem_cons_self _ _))
    have hsame : ∀ r ∈ rest, (if r = q then pair else heap r) = heap r := by
      intro r hr
      have : r ≠ q := fun h => hq_notin (h ▸ hr)
      simp [this]
    have hready1 : ∀ r ∈ rest,
        (take ((fun p => if p = q then pair else heap p) r)).isSome = true := by
      intro r hr
      show (take (if r = q then pair else heap r)).isSome = true
      rw [hsame r hr]
      exact hready r (List.mem_cons_of_mem _ hr)
    obtain ⟨heap1, out, hrun, hout, hheap⟩ :=
      ih (fun p => if p = q then pair else heap p) (acc ++ [t.GetITensorPtr])
        hrest_nd hready1
    refine ⟨heap1, out, ?_, ?_, ?_⟩
    · simp [borrowLoop, htake, hrun]
    · rw [hout]
      have hmap : rest.map (fun r =>
            (take ((fun p => if p = q then pair else heap p) r)).map
              (fun r => r.1.GetITensorPtr))
          = rest.map (fun r => (take (heap r)).map (fun r => r.1.GetITensorPtr)) := by
        apply List.map_congr_left
        intro r hr
        show (take (if r = q then pair else heap r)).map _ = _
        rw [hsame r hr]
      rw [hmap]
      simp [htake]
    · intro p
      rw [hheap p]
      by_cases hpq : p = q
      · subst hpq
        simp [hq_notin, htake]
      · by_cases hpr : p ∈ rest
        · simp [hpr, hpq]
        · simp [hpr, hpq]

/-- Taking from a non-empty `full` queue succeeds. -/
theorem takeFull_isSome (pair : BlockingQueuePair) (h : pair.full.queue_ ≠ []) :
    (takeFull pair).isSome = true := by
  cases hq : pair.full.queue_ with
  | nil => exact absurd hq h
  | cons t r => simp [takeFull, BlockingQueue.wait_and_pop, hq]

/-- Taking from a non-empty `free` queue succeeds. -/
theorem takeFree_isSome (pair : BlockingQueuePair) (h : pair.free.queue_ ≠ []) :
    (takeFree pair).isSome = true := by
  cases hq : pair.free.queue_ with
  | nil => exact absurd hq h
  | cons t r => simp [takeFree, BlockingQueue.wait_and_pop, hq]

/-- The tensor taken from `full` is its front element. -/
theorem takeFull_view (pair : BlockingQueuePair) :
    (takeFull pair).map (fun r => r.1.GetITensorPtr)
      = pair.full.queue_.head?.map Tensor.GetITensorPtr := by
  cases hq : pair.full.queue_ with
  | nil => simp [takeFull, BlockingQueue.wait_and_pop, hq]
  | cons t r => simp [takeFull, BlockingQueue.wait_and_pop, hq]

/-- The tensor taken from `free` is its front element. -/
theorem takeFree_view (pair : BlockingQueuePair) :
    (takeFree pair).map (fun r => r.1.GetITensorPtr)
      = pair.free.queue_.head?.map Tensor.GetITensorPtr := by
  cases hq : pair.free.queue_ with
  | nil => simp [takeFree, BlockingQueue.wait_and_pop, hq]
  | cons t r => simp [takeFree, BlockingQueue.wait_and_pop, hq]

/-- Taking from a non-empty `full` queue leaves the pair without that front element. -/
theorem takeFull_pair (pair : BlockingQueuePair) (h : pair.full.queue_ ≠ []) :
    (takeFull pair).map (fun r => r.2) = some (dropFull pair) := by
  cases hq : pair.full.queue_ with
  | nil => exact absurd hq h
  | cons t r => simp [takeFull, BlockingQueue.wait_and_pop, hq, dropFull]

/-- Taking from a non-empty `free` queue leaves the pair without that front element. -/
theorem takeFree_pair (pair : BlockingQueuePair) (h : pair.free.queue_ ≠ []) :
    (takeFree pair).map (fun r => r.2) = some (dropFree pair) := by
  cases hq : pair.free.queue_ with
  | nil => exact absurd hq h
  | cons t r => simp [takeFree, BlockingQueue.wait_and_pop, hq, dropFree]

/-- The flag of `CheckIoIsReady` is set exactly when no input `full` queue and no output
`free` queue is empty. -/
theorem CheckIoIsReady_true (heap : PairHeap) (n : Node) :
    (CheckIoIsReady heap n).1 = true ↔
      (∀ q ∈ n.input_queues_, (heap q).full.queue_ ≠ [])
        ∧ (∀ q ∈ n.output_queues_, (heap q).free.queue_ ≠ []) := by
  simp only [CheckIoIsReady, foldl_clear, Bool.true_and, Bool.and_eq_true, List.all_eq_true,
    BlockingQueue.empty, Bool.not_eq_true', List.isEmpty_eq_false, ne_eq]

/-- On a node whose input pairs are pairwise distinct and whose output pairs are pairwise
distinct, with every input `full` queue and every output `free` queue non-empty,
`BorrowIo` ends; the result vectors are the views of the front tensors, in the order of
the queue vectors; each input pair has lost the front of `full`, each output pair the
front of `free`, and nothing else in the heap has changed. -/
theorem BorrowIo_ready (heap : PairHeap) (n : Node) (inputs0 outputs0 : List ITensor)
    (hin : n.input_queues_.Nodup) (hout : n.output_queues_.Nodup)
    (hfull : ∀ q ∈ n.input_queues_, (heap q).full.queue_ ≠ [])
    (hfree : ∀ q ∈ n.output_queues_, (heap q).free.queue_ ≠ []) :
    ∃ heap1 inputs outputs, BorrowIo heap n inputs0 outputs0 = some (heap1, inputs, outputs)
      ∧ inputs.map some
          = n.input_queues_.map (fun q => (heap q).full.queue_.head?.map Tensor.GetITensorPtr)
      ∧ outputs.map some
          = n.output_queues_.map (fun q => (heap q).free.queue_.head?.map Tensor.GetITensorPtr)
      ∧ ∀ p, heap1 p =
          if p ∈ n.output_queues_ then
            dropFree (if p ∈ n.input_queues_ then dropFull (heap p) else heap p)
          else (if p ∈ n.input_queues_ then dropFull (heap p) else heap p) := by
  obtain ⟨heapA, insR, hrunA, hviewA, hheapA⟩ :=
    borrowLoop_spec takeFull n.input_queues_ heap [] hin
      (fun q hq => takeFull_isSome _ (hfull q hq))
  have hA : ∀ p, heapA p = if p ∈ n.input_queues_ then dropFull (heap p) else heap p := by
    intro p
    have h := hheapA p
    by_cases hp : p ∈ n.input_queues_
    · rw [if_pos hp, takeFull_pair (heap p) (hfull p hp)] at h
      rw [if_pos hp]
      exact Option.some.inj h
    · rw [if_neg hp] at h
      rw [if_neg hp]
      exact Option.some.inj h
  have hfreeEq : ∀ p, (heapA p).free = (heap p).free := by
    intro p
    rw [hA p]
    by_cases hp : p ∈ n.input_queues_
    · simp [hp, dropFull]
    · simp [hp]
  have hfreeA : ∀ q ∈ n.output_queues_, (heapA q).free.queue_ ≠ [] := by
    intro q hq
    rw [hfreeEq q]
    exact hfree q hq
  obtain ⟨heapB, outsR, hrunB, hviewB, hheapB⟩ :=
    borrowLoop_spec takeFree n.output_queues_ heapA [] hout
      (fun q hq => takeFree_isSome _ (hfreeA q hq))
  refine ⟨heapB, insR, outsR, ?_, ?_, ?_, ?_⟩
  · simp [BorrowIo, vectorClear, hrunA, hrunB]
  · rw [hviewA]
    simp [takeFull_view]
  · rw [hviewB]
    simp [takeFree_view, hfreeEq]
  · intro p
    have h := hheapB p
    by_cases hp : p ∈ n.output_queues_
    · rw [if_pos hp, takeFree_pair (heapA p) (hfreeA p hp)] at h
      rw [if_pos hp, ← hA p]
      exact Option.some.inj h
    · rw [if_neg hp] at h
      rw [if_neg hp, ← hA p]
      exact Option.some.inj h

/-- C13: for a node whose queue pairs (input and output entries together) are pairwise
distinct, with every input `full` queue and every output `free` queue non-empty, `BorrowIo`
ends whatever the result vectors held before; `inputs[i]` is the view of the front tensor
of `input_queues_[i]->full` and `outputs[j]` the view of the front tensor of
`output_queues_[j]->free`; each input pair has lost exactly the front of `full` and keeps
its `free` queue, each output pair has lost exactly the front of `free` and keeps its
`full` queue, and every other pair is unchanged. -/
theorem BorrowIo_borrows_fronts (heap : PairHeap) (n : Node) (inputs0 outputs0 : List ITensor)
    (hdistinct : (n.input_queues_ ++ n.output_queues_).Nodup)
    (hfull : ∀ q ∈ n.input_queues_, (heap q).full.queue_ ≠ [])
    (hfree : ∀ q ∈ n.output_queues_, (heap q).free.queue_ ≠ []) :
    ∃ heap1 inputs outputs, BorrowIo heap n inputs0 outputs0 = some (heap1, inputs, outputs)
      ∧ inputs.map some
          = n.input_queues_.map (fun q => (heap q).full.queue_.head?.map Tensor.GetITensorPtr)
      ∧ outputs.map some
          = n.output_queues_.map (fun q => (heap q).free.queue_.head?.map Tensor.GetITensorPtr)
      ∧ (∀ q ∈ n.input_queues_,
          (heap1 q).full.queue_ = (heap q).full.queue_.tail ∧ (heap1 q).free = (heap q).free)
      ∧ (∀ q ∈ n.output_queues_,
          (heap1 q).free.queue_ = (heap q).free.queue_.tail ∧ (heap1 q).full = (heap q).full)
      ∧ (∀ q, q ∉ n.input_queues_ → q ∉ n.output_queues_ → heap1 q = heap q) := by
  have hnd := List.nodup_append.mp hdistinct
  obtain ⟨heap1, inputs, outputs, hrun, hins, houts, hheap⟩ :=
    BorrowIo_ready heap n inputs0 outputs0 hnd.1 hnd.2.1 hfull hfree
  refine ⟨heap1, inputs, outputs, hrun, hins, houts, ?_, ?_, ?_⟩
  · intro q hq
    have hqo : q ∉ n.output_queues_ := fun h => hnd.2.2 hq h
    rw [hheap q, if_neg hqo, if_pos hq]
    exact ⟨rfl, rfl⟩
  · intro q hq
    have hqi : q ∉ n.input_queues_ := fun h => hnd.2.2 h hq
    rw [hheap q, if_pos hq, if_neg hqi]
    exact ⟨rfl, rfl⟩
  · intro q hqi hqo
    rw [hheap q, if_neg hqo, if_neg hqi]

/-- C13, on `borrowNode` in `exampleHeap`: pair 0 on the input side with one tensor on
`full`, pair 1 on the output side with one tensor on `free`. -/
theorem BorrowIo_borrows_fronts_witness :
    ∃ heap1 inputs outputs,
      BorrowIo exampleHeap borrowNode [sevens] [nines] = some (heap1, inputs, outputs)
      ∧ inputs.map some = borrowNode.input_queues_.map
          (fun q => (exampleHeap q).full.queue_.head?.map Tensor.GetITensorPtr)
      ∧ outputs.map some = borrowNode.output_queues_.map
          (fun q => (exampleHeap q).free.queue_.head?.map Tensor.GetITensorPtr)
      ∧ (∀ q ∈ borrowNode.input_queues_,
          (heap1 q).full.queue_ = (exampleHeap q).full.queue_.tail
            ∧ (heap1 q).free = (exampleHeap q).free)
      ∧ (∀ q ∈ borrowNode.output_queues_,
          (heap1 q).free.queue_ = (exampleHeap q).free.queue_.tail
            ∧ (heap1 q).full = (exampleHeap q).full)
      ∧ (∀ q, q ∉ borrowNode.input_queues_ → q ∉ borrowNode.output_queues_ →
          heap1 q = exampleHeap q) :=
  BorrowIo_borrows_fronts exampleHeap borrowNode [sevens] [nines] (by decide)
    (by
      intro q hq
      have h0 : q = 0 := by simpa [borrowNode] using hq
      subst h0
      simp [exampleHeap])
    (by
      intro q hq
      have h1 : q = 1 := by simpa [borrowNode] using hq
      subst h1
      simp [exampleHeap])

/-- C14, on `borrowNode` in `exampleHeap`: before `BorrowIo` the input pair 0 and the
output pair 1 each hold one tensor (`|full| + |free| = 1`); after `BorrowIo` followed by
`RecycleIo` on the borrowed vectors both queues of both pairs are empty, so the borrowed
input tensor is not in the `free` queue of pair 0, the borrowed output tensor is not in
the `full` queue of pair 1, and `|full| + |free|` has dropped to 0 for both pairs. -/
theorem RecycleIo_returns_nothing :
    ((exampleHeap 0).full.size + (exampleHeap 0).free.size,
        (exampleHeap 1).full.size + (exampleHeap 1).free.size) = (1, 1)
      ∧ (BorrowIo exampleHeap borrowNode [] []).map
          (fun r => (r.2.1.length, r.2.2.length)) = some (1, 1)
      ∧ (BorrowIo exampleHeap borrowNode [] []).map
          (fun r =>
            (((RecycleIo r.1 r.2.1 r.2.2).1 0).full.size,
              ((RecycleIo r.1 r.2.1 r.2.2).1 0).free.size,
              ((RecycleIo r.1 r.2.1 r.2.2).1 1).full.size,
              ((RecycleIo r.1 r.2.1 r.2.2).1 1).free.size)) = some (0, 0, 0, 0) := by
  refine ⟨by decide, by decide, by decide⟩

/-- C15: when `CheckIoIsReady` returns `true` and no pair occurs twice in `input_queues_`
nor twice in `output_queues_`, `BorrowIo` run on the state `CheckIoIsReady` left ends: no
`wait_and_pop` meets an empty queue, and it delivers one view per queue entry. -/
theorem BorrowIo_after_ready (heap : PairHeap) (n : Node) (inputs0 outputs0 : List ITensor)
    (hready : (CheckIoIsReady heap n).1 = true)
    (hin : n.input_queues_.Nodup) (hout : n.output_queues_.Nodup) :
    ∃ heap1 inputs outputs,
      BorrowIo (CheckIoIsReady heap n).2 n inputs0 outputs0 = some (heap1, inputs, outputs)
      ∧ inputs.length = n.input_queues_.length
      ∧ outputs.length = n.output_queues_.length := by
  obtain ⟨hfull, hfree⟩ := (CheckIoIsReady_true heap n).mp hready
  have hheap : (CheckIoIsReady heap n).2 = heap := rfl
  rw [hheap]
  obtain ⟨heap1, inputs, outputs, hrun, hins, houts, _⟩ :=
    BorrowIo_ready heap n inputs0 outputs0 hin hout hfull hfree
  refine ⟨heap1, inputs, outputs, hrun, ?_, ?_⟩
  · have := congrArg List.length hins
    simpa using this
  · have := congrArg List.length houts
    simpa using this

/-- C15, on `borrowNode` in `exampleHeap`. -/
theorem BorrowIo_after_ready_witness :
    ∃ heap1 inputs outputs,
      BorrowIo (CheckIoIsReady exampleHeap borrowNode).2 borrowNode [] []
        = some (heap1, inputs, outputs)
      ∧ inputs.length = borrowNode.input_queues_.length
      ∧ outputs.length = borrowNode.output_queues_.length :=
  BorrowIo_after_ready exampleHeap borrowNode [] [] (by decide) (by decide) (by decide)

/-! ## Reordering only rearranges -/

/-- A counted loop whose body, on every index below the bound, succeeds and keeps a
property of the state, succeeds and keeps it. -/
theorem foldlM_range_invariant {σ : Type} (P : σ → Prop) (f : σ → Nat → Option σ)
    (bound : Nat) (hstep : ∀ s i, P s → i < bound → ∃ s1, f s i = some s1 ∧ P s1) :
    ∀ m, m ≤ bound → ∀ s, P s → ∃ s1, (List.range m).foldlM f s = some s1 ∧ P s1 := by
  intro m
  induction m with
  | zero => intro _ s hs; exact ⟨s, by simp, hs⟩
  | succ m ih =>
    intro hm s hs
    obtain ⟨s1, hrun, hs1⟩ := ih (Nat.le_of_succ_le hm) s hs
    obtain ⟨s2, hstep2, hs2⟩ := hstep s1 m hs1 hm
    refine ⟨s2, ?_, hs2⟩
    rw [List.range_succ, List.foldlM_append, hrun]
    simp [hstep2]

/-- One round of the inner loop with both indices inside the vector succeeds and
rearranges the queues. -/
theorem reorderStep_perm (name : PairPtr → String) (t : String) (ni qi : Nat)
    (qs0 s : List PairPtr) (hs : s.Perm qs0) (hni : ni < qs0.length)
    (hqi : qi < qs0.length) :
    ∃ s1, reorderStep name t ni s qi = some s1 ∧ s1.Perm qs0 := by
  have hlen : s.length = qs0.length := hs.length_eq
  obtain ⟨x, hx⟩ : ∃ x, s[qi]? = some x := ⟨s[qi], by simp [hlen, hqi]⟩
  obtain ⟨y, hy⟩ : ∃ y, s[ni]? = some y := ⟨s[ni], by simp [hlen, hni]⟩
  unfold reorderStep
  rw [hx]
  by_cases ht : t = name x
  · by_cases hnq : ni = qi
    · exact ⟨s, by simp [ht, hnq], hs⟩
    · refine ⟨(s.set ni x).set qi y, ?_, (perm_set_set x y s ni qi hy hx).trans hs⟩
      simp [ht, hnq, SwapQueueOrder_eq s ni qi y x hy hx]
  · exact ⟨s, by simp [ht], hs⟩

/-- The inner loop with `ni` inside the vector succeeds and rearranges the queues. -/
theorem reorderScan_perm (name : PairPtr → String) (t : String) (ni : Nat)
    (qs0 s : List PairPtr) (hs : s.Perm qs0) (hni : ni < qs0.length) :
    ∃ s1, reorderScan name t ni s = some s1 ∧ s1.Perm qs0 := by
  unfold reorderScan
  have hlen : s.length = qs0.length := hs.length_eq
  exact foldlM_range_invariant (fun l => l.Perm qs0) (reorderStep name t ni) qs0.length
    (fun l i hl hi => reorderStep_perm name t ni i qs0 l hl hni hi)
    s.length (Nat.le_of_eq hlen) s hs

/-- The two loops, with no more neighbours than queues, succeed and rearrange the
queues, whatever the names. -/
theorem reorderLoop_perm (name : PairPtr → String) (nodes : List String)
    (qs0 : List PairPtr) (hle : nodes.length ≤ qs0.length) :
    ∃ qs, reorderLoop name nodes qs0 = some qs ∧ qs.Perm qs0 := by
  unfold reorderLoop
  apply foldlM_range_invariant (fun l => l.Perm qs0) _ nodes.length _ nodes.length
    (Nat.le_refl _) qs0 (List.Perm.refl _)
  intro l i hl hi
  have hget : nodes[i]? = some nodes[i] := by simp [hi]
  rw [hget]
  exact reorderScan_perm name nodes[i] i qs0 l hl (Nat.lt_of_lt_of_le hi hle)

/-- C16: for a node with non-null `input_nodes_` no longer than `input_queues_`, whatever
the names (repeated or unmatched), `ReorderInputQueues` ends with every index inside the
vector, and the resulting `input_queues_` has the same length and is a rearrangement of
the former one, the rest of the node being as before; with `input_nodes_` null the node is
unchanged. The same holds for `ReorderOutputQueues` with `output_nodes_` and
`output_queues_`. -/
theorem Reorder_only_permutes (heap : PairHeap) (n : Node) :
    (∀ nodes, n.input_nodes_ = some nodes → nodes.length ≤ n.input_queues_.length →
        ∃ n1, ReorderInputQueues heap n = some n1
          ∧ n1.input_queues_.length = n.input_queues_.length
          ∧ n1.input_queues_.Perm n.input_queues_
          ∧ n1 = { n with input_queues_ := n1.input_queues_ })
      ∧ (n.input_nodes_ = none → ReorderInputQueues heap n = some n)
      ∧ (∀ nodes, n.output_nodes_ = some nodes → nodes.length ≤ n.output_queues_.length →
        ∃ n1, ReorderOutputQueues heap n = some n1
          ∧ n1.output_queues_.length = n.output_queues_.length
          ∧ n1.output_queues_.Perm n.output_queues_
          ∧ n1 = { n with output_queues_ := n1.output_queues_ })
      ∧ (n.output_nodes_ = none → ReorderOutputQueues heap n = some n) := by
  refine ⟨?_, ?_, ?_, ?_⟩
  · intro nodes hnodes hle
    obtain ⟨qs, hrun, hperm⟩ :=
      reorderLoop_perm (fun q => (heap q).front_name) nodes n.input_queues_ hle
    exact ⟨{ n with input_queues_ := qs }, by simp [ReorderInputQueues, hnodes, hrun],
      hperm.length_eq, hperm, rfl⟩
  · intro hnull
    simp [ReorderInputQueues, hnull]
  · intro nodes hnodes hle
    obtain ⟨qs, hrun, hperm⟩ :=
      reorderLoop_perm (fun q => (heap q).rear_name) nodes n.output_queues_ hle
    exact ⟨{ n with output_queues_ := qs }, by simp [ReorderOutputQueues, hnodes, hrun],
      hperm.length_eq, hperm, rfl⟩
  · intro hnull
    simp [ReorderOutputQueues, hnull]

/-- C16, on `repeatedNode` in `exampleHeap`: the input neighbours `b, q, b` (a repeated
and an unmatched name) against three queues, and a null `output_nodes_`. -/
theorem Reorder_only_permutes_witness :
    (∃ n1, ReorderInputQueues exampleHeap repeatedNode = some n1
        ∧ n1.input_queues_.length = repeatedNode.input_queues_.length
        ∧ n1.input_queues_.Perm repeatedNode.input_queues_
        ∧ n1 = { repeatedNode with input_queues_ := n1.input_queues_ })
      ∧ ReorderOutputQueues exampleHeap repeatedNode = some repeatedNode :=
  ⟨(Reorder_only_permutes exampleHeap repeatedNode).1 ["b", "q", "b"] rfl (by decide),
    (Reorder_only_permutes exampleHeap repeatedNode).2.2.2 rfl⟩

/-! ## Non-blocking accessors -/

/-- C17: on an empty queue `try_pop` and `try_front` return `false` and leave the queue
and the slot `*t` as they were; on a queue with front `x` both return `true` with `x` in
the slot, `try_pop` leaves the rest of the queue in order, one element shorter, and
`try_front` leaves the queue as it was; `empty()` holds exactly when `size()` is 0; and
`push` makes `size()` one larger, the new element last. -/
theorem BlockingQueue_accessors {T : Type} (q : BlockingQueue T) (slot t : T) :
    (q.queue_ = [] →
        q.try_pop slot = (false, slot, q) ∧ q.try_front slot = (false, slot, q))
      ∧ (∀ x rest, q.queue_ = x :: rest →
          q.try_pop slot = (true, x, BlockingQueue.mk rest)
            ∧ q.try_front slot = (true, x, q)
            ∧ (BlockingQueue.mk rest).size + 1 = q.size)
      ∧ (q.empty = true ↔ q.size = 0)
      ∧ (q.push t).size = q.size + 1
      ∧ (q.push t).queue_ = q.queue_ ++ [t] := by
  obtain ⟨l⟩ := q
  refine ⟨?_, ?_, ?_, ?_, rfl⟩
  · intro h
    have hl : l = [] := h
    subst hl
    exact ⟨rfl, rfl⟩
  · intro x rest h
    have hl : l = x :: rest := h
    subst hl
    exact ⟨rfl, rfl, rfl⟩
  · cases l <;> simp [BlockingQueue.empty, BlockingQueue.size]
  · simp [BlockingQueue.push, BlockingQueue.size]

end ecas
